import Mathlib

/-!
Verification of the `uplang` UP (Unified Properties) parser
(`src/uplang/__init__.py`) against its natural-language specification.

The Python source is shallowly embedded below.  Python strings are modelled
as `List Char` (`Str`); Python's whitespace class is modelled on its ASCII
fragment; `str.isdigit` is modelled on a representative fragment of both of
its character classes: decimal digits (ASCII, Arabic-Indic and fullwidth,
which `int()` converts by decimal value) and digit-only characters such as
the superscripts U+00B9/U+00B2/U+00B3, which Python classifies as digits but
which `int()` rejects with a `ValueError` (this is the parser's one
reachable fault path).  Python exceptions are modelled with
`Except Str`; the recursive-descent functions are fuel-indexed so that they
are structurally recursive and kernel-computable, and it is proved below
that the canonical fuel `3 * lines.length + 1` used by `parse_document`
always suffices (`fuel_sufficient`), so the fuel is inert.
-/

namespace UP

/-- Python strings, modelled as lists of characters. -/
abbrev Str := List Char

/-- The ASCII fragment of the character class Python's `str.strip()` /
`str.split()` treat as whitespace. -/
def isPySpace (c : Char) : Bool :=
  c == ' ' || c == '\t' || c == '\n' || c == '\r' || c == '\x0b' || c == '\x0c'

/-- Python `s.strip()`: remove leading and trailing whitespace. -/
def pyStrip (s : Str) : Str :=
  ((s.dropWhile isPySpace).reverse.dropWhile isPySpace).reverse

/-- Python `s.split(sep)` for a single-character separator `c`
(used by the source as `input_text.split("\n")`, `text.split("\n")` and
`content.split(",")`).  `"".split(c) = [""]`, and every occurrence of `c`
separates two (possibly empty) pieces. -/
def splitOnChar (c : Char) : Str → List Str
  | [] => [[]]
  | x :: xs =>
    match splitOnChar c xs with
    | [] => if x == c then [[], []] else [[x]]
    | h :: t => if x == c then [] :: h :: t else (x :: h) :: t

/-- Python `"\n".join(pieces)`. -/
def joinNl : List Str → Str
  | [] => []
  | [l] => l
  | l :: ls => l ++ '\n' :: joinNl ls

/-- Python `line.split(None, 1)`: skip leading whitespace, take the first
whitespace-delimited word; the remainder is everything after the whitespace
run following that word (kept verbatim, including trailing whitespace), and
is omitted when empty. -/
def pySplitWs1 (s : Str) : List Str :=
  if (s.dropWhile isPySpace).isEmpty then []
  else
    if (((s.dropWhile isPySpace).dropWhile (fun c => !isPySpace c)).dropWhile isPySpace).isEmpty then
      [(s.dropWhile isPySpace).takeWhile (fun c => !isPySpace c)]
    else
      [(s.dropWhile isPySpace).takeWhile (fun c => !isPySpace c),
       ((s.dropWhile isPySpace).dropWhile (fun c => !isPySpace c)).dropWhile isPySpace]

/-- Embeds `Parser._split_key_value` (source lines 98-103):
`parts = line.split(None, 1)`; if fewer than 2 parts, the key is the sole
part (or `""`) and the value is `""`. -/
def split_key_value (line : Str) : Str × Str :=
  match pySplitWs1 line with
  | [] => ([], [])
  | [k] => (k, [])
  | k :: v :: _ => (k, v)

/-- Embeds `Parser._parse_key_and_type` (source lines 105-110): split the key
token on the first `!` into key and annotation; no `!` means no annotation. -/
def parse_key_and_type (keyPart : Str) : Str × Option Str :=
  if keyPart.contains '!' then
    (keyPart.takeWhile (fun c => c != '!'),
     some ((keyPart.dropWhile (fun c => c != '!')).drop 1))
  else (keyPart, none)

/-- Python decimal digits (Unicode general category `Nd`): the characters
`int()` accepts and converts by their decimal value.  Modelled on a
representative fragment of `Nd`: the ASCII digits `0`-`9`, the Arabic-Indic
digits `٠`-`٩` (U+0660-U+0669) and the fullwidth digits `０`-`９`
(U+FF10-U+FF19). -/
def pyIsDecimalChar (c : Char) : Bool :=
  c.isDigit || (0x660 ≤ c.toNat && c.toNat ≤ 0x669)
    || (0xFF10 ≤ c.toNat && c.toNat ≤ 0xFF19)

/-- The decimal value of a decimal digit (`Nd` character). -/
def pyDecimalVal (c : Char) : Nat :=
  if c.isDigit then c.toNat - 0x30
  else if c.toNat ≤ 0x669 then c.toNat - 0x660
  else c.toNat - 0xFF10

/-- Python `str.isdigit` on single characters: true for characters with
Unicode property `Numeric_Type = Digit` or `Decimal` — the decimal digits
(which `int()` converts) together with digit-only characters such as the
superscripts `¹` (U+00B9), `²` (U+00B2) and `³` (U+00B3), which Python
classifies as digits although `int()` rejects them. -/
def pyIsDigitChar (c : Char) : Bool :=
  pyIsDecimalChar c || c == '¹' || c == '²' || c == '³'

/-- Python `s.isdigit()`: nonempty and every character a digit. -/
def pyIsDigit (s : Str) : Bool :=
  !s.isEmpty && s.all pyIsDigitChar

/-- Decimal value of a string of decimal digits, as Python `int()` reads it
(each `Nd` character contributes its decimal value, mixed scripts allowed). -/
def digitsVal (s : Str) : Nat :=
  s.foldl (fun a c => a * 10 + pyDecimalVal c) 0

/-- The apostrophe character, as it appears in Python's `ValueError` text. -/
def squote : Char := Char.ofNat 39

/-- The message of the `ValueError` raised by Python's `int(s)` on a
digit-classified but non-decimal string. -/
def intErrMsg (s : Str) : Str :=
  ("invalid literal for int() with base 10: ").toList ++ squote :: s ++ [squote]

/-- Python `int(s)` for a string `s` satisfying `s.isdigit()` (the only way
the source calls it): succeeds exactly when every character is a decimal
digit (`Nd`, not necessarily ASCII), converting by decimal value; otherwise
raises `ValueError`. -/
def pyIntOfDigits (s : Str) : Except Str Nat :=
  if s.all pyIsDecimalChar then Except.ok (digitsVal s) else Except.error (intErrMsg s)

/-- The backtick character (U+0060). -/
def backtick : Char := Char.ofNat 96

/-- The multiline fence token, three backticks. -/
def fence : Str := [backtick, backtick, backtick]

/-- UP values: Python uses `str`, `dict[str, Any]` and `list[Any]`; this is
the corresponding tagged union.  A block is an insertion-ordered association
list (the embedding of Python's insertion-ordered `dict`). -/
inductive Value where
  | scalar (s : Str)
  | block (entries : List (Str × Value))
  | list (elems : List Value)

/-- A key-value node with optional type annotation (`Node` in the source;
`typeAnn` models the Python field `type_annotation`). -/
structure Node where
  key : Str
  value : Value
  typeAnn : Option Str

/-- A parsed UP document (`Document` in the source). -/
structure Document where
  nodes : List Node

/-- `Document.is_empty` from the source. -/
def Document.is_empty (d : Document) : Bool :=
  d.nodes.length == 0

/-- Embeds Python dict assignment `block[k] = v` on an insertion-ordered
dict: overwrite in place when the key is present (keeping its position),
otherwise append at the end. -/
def blockInsert (b : List (Str × Value)) (k : Str) (v : Value) : List (Str × Value) :=
  if b.any (fun p => p.1 == k) then
    b.map (fun p => if p.1 == k then (k, v) else p)
  else b ++ [(k, v)]

/-- Embeds `Parser._parse_inline_list` (source lines 224-231):
`content = s.strip()[1:-1]`; empty/all-whitespace content gives `[]`;
otherwise split on `,` and strip each piece. -/
def parse_inline_list (s : Str) : List Value :=
  if (pyStrip (((pyStrip s).drop 1).dropLast)).isEmpty then []
  else (splitOnChar ',' (((pyStrip s).drop 1).dropLast)).map (fun item => Value.scalar (pyStrip item))

/-- Embeds `Parser._dedent` (source lines 233-236): for each line, drop the
first `amount` characters when the line is at least that long, else leave
the line unchanged; join with `"\n"`. -/
def dedent (text : Str) (amount : Nat) : Str :=
  joinNl ((splitOnChar '\n' text).map
    (fun line => if line.length ≥ amount then line.drop amount else line))

/-- Sequencing for fuel-indexed fallible results: `none` is fuel exhaustion,
`Except.error` an uncaught Python exception. -/
def bindR {α β : Type} (x : Option (Except Str (α × Nat)))
    (f : α × Nat → Option (Except Str (β × Nat))) : Option (Except Str (β × Nat)) :=
  match x with
  | none => none
  | some (Except.error e) => some (Except.error e)
  | some (Except.ok r) => f r

/-- Mapping the payload of a fuel-indexed fallible result. -/
def omapR {α β : Type} (f : α → β) (x : Option (Except Str (α × Nat))) :
    Option (Except Str (β × Nat)) :=
  match x with
  | none => none
  | some (Except.error e) => some (Except.error e)
  | some (Except.ok (a, j)) => some (Except.ok (f a, j))

/-- The line-accumulating loop of `Parser._parse_multiline` (source lines
146-157): collect raw lines until a line whose stripped form is the fence
(consumed, excluded) or end of input. -/
def parse_multiline_lines (fuel : Nat) (lines : List Str) (i : Nat) : Option (List Str × Nat) :=
  match fuel with
  | 0 => none
  | fuel + 1 =>
    if i < lines.length then
      if pyStrip (lines.getD i []) == fence then some ([], i + 1)
      else
        match parse_multiline_lines fuel lines (i + 1) with
        | none => none
        | some (content, j) => some (lines.getD i [] :: content, j)
    else some ([], i)

/-- Embeds `Parser._parse_multiline` (source lines 139-164): join the
accumulated lines with `"\n"`; if the type annotation is truthy and
`isdigit`, apply `int` and dedent (the `int` call is where a `ValueError`
can arise). -/
def parse_multiline (fuel : Nat) (lines : List Str) (i : Nat) (typeAnn : Option Str) :
    Option (Except Str (Str × Nat)) :=
  match parse_multiline_lines fuel lines i with
  | none => none
  | some (content, j) =>
    match typeAnn with
    | none => some (Except.ok (joinNl content, j))
    | some ann =>
      if !ann.isEmpty && pyIsDigit ann then
        match pyIntOfDigits ann with
        | Except.ok n => some (Except.ok (dedent (joinNl content) n, j))
        | Except.error e => some (Except.error e)
      else some (Except.ok (joinNl content, j))

mutual

/-- Embeds `Parser._parse_line` (source lines 88-96): split the raw line
into key and value parts, split the key on `!`, dispatch on the value part,
and package the `Node`. -/
def parse_line (fuel : Nat) (lines : List Str) (i : Nat) : Option (Except Str (Node × Nat)) :=
  match fuel with
  | 0 => none
  | fuel + 1 =>
    bindR (parse_value fuel lines i
            (split_key_value (lines.getD i [])).2
            (parse_key_and_type (split_key_value (lines.getD i [])).1).2)
      (fun r => some (Except.ok
        ({ key := (parse_key_and_type (split_key_value (lines.getD i [])).1).1,
           value := r.1,
           typeAnn := (parse_key_and_type (split_key_value (lines.getD i [])).1).2 }, r.2)))
termination_by structural fuel

/-- Embeds `Parser._parse_value` (source lines 112-137): dispatch on the
value part in the source's order — multiline fence, `{`, `[`, inline list,
scalar. -/
def parse_value (fuel : Nat) (lines : List Str) (i : Nat) (valPart : Str) (typeAnn : Option Str) :
    Option (Except Str (Value × Nat)) :=
  match fuel with
  | 0 => none
  | fuel + 1 =>
    if fence.isPrefixOf valPart then
      omapR Value.scalar (parse_multiline fuel lines (i + 1) typeAnn)
    else if valPart = ['\x7b'] then
      omapR Value.block (parse_block fuel lines (i + 1) [])
    else if valPart = ['['] then
      omapR Value.list (parse_list fuel lines (i + 1) [])
    else if ['['].isPrefixOf valPart && [']'].isSuffixOf valPart then
      some (Except.ok (Value.list (parse_inline_list valPart), i + 1))
    else
      some (Except.ok (Value.scalar valPart, i + 1))
termination_by structural fuel

/-- Embeds `Parser._parse_block` (source lines 166-188): consume lines until
a stripped `}` (consumed, excluded) or end of input; skip blanks and
comments; otherwise parse a line and assign `block[key] = value`. -/
def parse_block (fuel : Nat) (lines : List Str) (i : Nat) (block : List (Str × Value)) :
    Option (Except Str (List (Str × Value) × Nat)) :=
  match fuel with
  | 0 => none
  | fuel + 1 =>
    if i < lines.length then
      if pyStrip (lines.getD i []) = ['\x7d'] then some (Except.ok (block, i + 1))
      else if (pyStrip (lines.getD i [])).isEmpty || ['#'].isPrefixOf (pyStrip (lines.getD i [])) then
        parse_block fuel lines (i + 1) block
      else
        bindR (parse_line fuel lines i)
          (fun r => parse_block fuel lines r.2 (blockInsert block r.1.key r.1.value))
    else some (Except.ok (block, i))
termination_by structural fuel

/-- Embeds `Parser._parse_list` (source lines 190-222): consume lines until
a stripped `]` (consumed, excluded) or end of input; skip blanks and
comments; append inline lists, nested blocks (introduced by a lone `{`), or
the stripped line as a scalar. -/
def parse_list (fuel : Nat) (lines : List Str) (i : Nat) (lst : List Value) :
    Option (Except Str (List Value × Nat)) :=
  match fuel with
  | 0 => none
  | fuel + 1 =>
    if i < lines.length then
      if pyStrip (lines.getD i []) = [']'] then some (Except.ok (lst, i + 1))
      else if (pyStrip (lines.getD i [])).isEmpty || ['#'].isPrefixOf (pyStrip (lines.getD i [])) then
        parse_list fuel lines (i + 1) lst
      else if ['['].isPrefixOf (pyStrip (lines.getD i [])) && [']'].isSuffixOf (pyStrip (lines.getD i [])) then
        parse_list fuel lines (i + 1) (lst ++ [Value.list (parse_inline_list (pyStrip (lines.getD i [])))])
      else if pyStrip (lines.getD i []) = ['\x7b'] then
        bindR (parse_block fuel lines (i + 1) [])
          (fun r => parse_list fuel lines r.2 (lst ++ [Value.block r.1]))
      else
        parse_list fuel lines (i + 1) (lst ++ [Value.scalar (pyStrip (lines.getD i []))])
    else some (Except.ok (lst, i))
termination_by structural fuel

end

/-- The Python exception-to-`ParseError` wrapping of `Parser.parse_document`:
`f"line {i + 1}: {e}"`. -/
def lineErr (i : Nat) (e : Str) : Str :=
  ("line ").toList ++ Nat.toDigits 10 (i + 1) ++ (": ").toList ++ e

/-- The top-level loop of `Parser.parse_document` (source lines 65-86):
skip blanks, comments and stray `}` / `]` lines; parse each remaining line,
wrapping any fault as `"line {i+1}: {e}"`, with `i` the position at which
the current top-level node began. -/
def parse_doc : Nat → List Str → Nat → List Node → Option (Except Str (List Node))
  | 0, _, _, _ => none
  | fuel + 1, lines, i, nodes =>
    if i < lines.length then
      if (pyStrip (lines.getD i [])).isEmpty || ['#'].isPrefixOf (pyStrip (lines.getD i [])) then
        parse_doc fuel lines (i + 1) nodes
      else if pyStrip (lines.getD i []) = ['\x7d'] || pyStrip (lines.getD i []) = [']'] then
        parse_doc fuel lines (i + 1) nodes
      else
        match parse_line fuel lines i with
        | none => none
        | some (Except.error e) => some (Except.error (lineErr i e))
        | some (Except.ok r) => parse_doc fuel lines r.2 (nodes ++ [r.1])
    else some (Except.ok nodes)

/-- Embeds `Parser.parse_document` / `parse` (source lines 65-86, 239-241):
split the input on `"\n"` and run the top-level loop.  The fuel
`3 * lines.length + 1` is always sufficient (`fuel_sufficient` below), so
the `none` fallback is unreachable. -/
def parse_document (input : Str) : Except Str Document :=
  match parse_doc (3 * (splitOnChar '\n' input).length + 1) (splitOnChar '\n' input) 0 [] with
  | some (Except.ok ns) => Except.ok ⟨ns⟩
  | some (Except.error e) => Except.error e
  | none => Except.ok ⟨[]⟩

/-- The assignment trace of `Parser._parse_block`: the `(key, value)` pairs
in the order in which the loop executes `block[node.key] = node.value`,
recorded before dict overwrite semantics are applied.  Same loop as
`parse_block`, collecting instead of inserting; `parse_block_eq_asgns`
below proves that `parse_block` is the `blockInsert`-fold of this trace. -/
def block_asgns (fuel : Nat) (lines : List Str) (i : Nat) :
    Option (Except Str (List (Str × Value) × Nat)) :=
  match fuel with
  | 0 => none
  | fuel + 1 =>
    if i < lines.length then
      if pyStrip (lines.getD i []) = ['\x7d'] then some (Except.ok ([], i + 1))
      else if (pyStrip (lines.getD i [])).isEmpty || ['#'].isPrefixOf (pyStrip (lines.getD i [])) then
        block_asgns fuel lines (i + 1)
      else
        bindR (parse_line fuel lines i)
          (fun r => omapR (fun asgn => (r.1.key, r.1.value) :: asgn) (block_asgns fuel lines r.2))
    else some (Except.ok ([], i))

/-- Literal reading of claim C5 ("splits the line on the first run of
whitespace into (key_token, remainder) ... the remainder retains everything
after the whitespace run"): the key token is the text before the first
whitespace run of the raw line, the remainder the text after that run. -/
def splitC5spec (line : Str) : Str × Str :=
  (line.takeWhile (fun c => !isPySpace c),
   (line.dropWhile (fun c => !isPySpace c)).dropWhile isPySpace)

/-- The amended description of the Key/Value Line Splitter: leading
whitespace is skipped first; the key token is the first
whitespace-delimited word of the line, and the remainder is everything
after the whitespace run that follows it, verbatim (trailing whitespace
kept). -/
def split_key_value_amended (line : Str) : Str × Str :=
  ((line.dropWhile isPySpace).takeWhile (fun c => !isPySpace c),
   ((line.dropWhile isPySpace).dropWhile (fun c => !isPySpace c)).dropWhile isPySpace)

/-- First-occurrence deduplication (helper for C2): keeps each key at the
position of its first occurrence, dropping later repeats; `seen` holds the
keys already emitted. -/
def firstDedupAux (seen : List Str) : List Str → List Str
  | [] => []
  | k :: ks => if k ∈ seen then firstDedupAux seen ks else k :: firstDedupAux (k :: seen) ks

/-- First-occurrence deduplication of a key sequence. -/
def firstDedup (ks : List Str) : List Str := firstDedupAux [] ks

/-- The last value assigned to key `K` in an assignment trace (helper for
C2). -/
def lastVal (asgn : List (Str × Value)) (K : Str) : Option Value :=
  asgn.foldl (fun acc p => if p.1 = K then some p.2 else acc) none

/-- One step of key bookkeeping for `blockInsert`: the key list is unchanged
when the key is present, else the key is appended. -/
def insK (ks : List Str) (k : Str) : List Str :=
  if k ∈ ks then ks else ks ++ [k]

/-! ### Lemmas about the string utilities -/

theorem splitOnChar_ne_nil (c : Char) (s : Str) : splitOnChar c s ≠ [] := by
  induction s with
  | nil => simp [splitOnChar]
  | cons x xs ih =>
    simp only [splitOnChar]
    split <;> split <;> simp

theorem not_mem_of_mem_splitOnChar (c : Char) (s : Str) :
    ∀ l ∈ splitOnChar c s, c ∉ l := by
  induction s with
  | nil =>
    intro l hl
    simp only [splitOnChar, List.mem_singleton] at hl
    subst hl; simp
  | cons x xs ih =>
    intro l hl
    rcases hmatch : splitOnChar c xs with _ | ⟨hd, tl⟩
    · exact absurd hmatch (splitOnChar_ne_nil c xs)
    · have hhd : hd ∈ splitOnChar c xs := by
        rw [hmatch]; exact List.mem_cons_self hd tl
      simp only [splitOnChar, hmatch] at hl
      split at hl
      · rcases List.mem_cons.mp hl with rfl | hl2
        · simp
        · have : l ∈ splitOnChar c xs := by rw [hmatch]; exact hl2
          exact ih l this
      · rename_i hxc
        rcases List.mem_cons.mp hl with rfl | hl2
        · intro hc
          rcases List.mem_cons.mp hc with rfl | hc2
          · exact hxc (beq_self_eq_true c)
          · exact ih hd hhd hc2
        · have : l ∈ splitOnChar c xs := by
            rw [hmatch]; exact List.mem_cons_of_mem hd hl2
          exact ih l this

theorem splitOnChar_of_not_mem {c : Char} {s : Str} (h : c ∉ s) :
    splitOnChar c s = [s] := by
  induction s with
  | nil => rfl
  | cons x xs ih =>
    have hx : (x == c) = false :=
      beq_eq_false_iff_ne.mpr (fun hxc => h (hxc ▸ List.mem_cons_self x xs))
    have hxs : c ∉ xs := fun hc => h (List.mem_cons_of_mem x hc)
    simp only [splitOnChar, ih hxs, hx, Bool.false_eq_true, if_false]

theorem splitOnChar_append_cons (c : Char) (l t : Str) (h : c ∉ l) :
    splitOnChar c (l ++ c :: t) = l :: splitOnChar c t := by
  induction l with
  | nil =>
    simp only [List.nil_append, splitOnChar]
    rcases ht : splitOnChar c t with _ | ⟨hd, tl⟩
    · exact absurd ht (splitOnChar_ne_nil c t)
    · simp
  | cons x xs ih =>
    have hx : (x == c) = false :=
      beq_eq_false_iff_ne.mpr (fun hxc => h (hxc ▸ List.mem_cons_self x xs))
    have hxs : c ∉ xs := fun hc => h (List.mem_cons_of_mem x hc)
    simp only [List.cons_append, splitOnChar, List.append_eq, ih hxs, hx,
      Bool.false_eq_true, if_false]

theorem splitOnChar_joinNl (ls : List Str) (hne : ls ≠ [])
    (h : ∀ l ∈ ls, '\n' ∉ l) : splitOnChar '\n' (joinNl ls) = ls := by
  induction ls with
  | nil => exact absurd rfl hne
  | cons l ls ih =>
    cases ls with
    | nil => exact splitOnChar_of_not_mem (h l (List.mem_cons_self l []))
    | cons l2 rest =>
      have : joinNl (l :: l2 :: rest) = l ++ '\n' :: joinNl (l2 :: rest) := rfl
      rw [this, splitOnChar_append_cons _ _ _ (h l (List.mem_cons_self l _)),
        ih (by simp) (fun x hx => h x (List.mem_cons_of_mem l hx))]

/-! ### Claim C7: the Dedent Transform -/

/-- Claim C7: for every text and every amount N, the Dedent Transform maps
each line independently — a line of length ≥ N loses exactly its first N
characters (whitespace or not), a shorter line is unchanged (no padding, no
error) — and the results are joined with a line-break separator (stated
through `splitOnChar '\n'`, which recovers exactly the per-line images). -/
theorem c7_dedent_per_line (text : Str) (amount : Nat) :
    splitOnChar '\n' (dedent text amount) =
      (splitOnChar '\n' text).map
        (fun line => if line.length ≥ amount then line.drop amount else line) := by
  have hded : dedent text amount =
      joinNl ((splitOnChar '\n' text).map
        (fun line => if line.length ≥ amount then line.drop amount else line)) := rfl
  rw [hded]
  apply splitOnChar_joinNl
  · intro hmap
    exact splitOnChar_ne_nil '\n' text (List.map_eq_nil_iff.mp hmap)
  · intro l hl
    rcases List.mem_map.mp hl with ⟨l0, hl0, rfl⟩
    have h0 : '\n' ∉ l0 := not_mem_of_mem_splitOnChar '\n' text l0 hl0
    by_cases hlen : l0.length ≥ amount
    · simp only [hlen, if_true]
      exact fun hc => h0 (List.drop_subset amount l0 hc)
    · simp only [hlen, if_false]
      exact h0

/-! ### Claim C1: the Value Dispatcher priority order -/

/-- Claim C1: `_parse_value` decides the form of the remainder in the fixed
priority order of the source: a remainder starting with three backticks is
multiline; else exactly `{` is a block; else exactly `[` is a multiline
list (so a lone `[` never reaches the inline rule); else a remainder that
starts with `[` and ends with `]` is an inline list parsed in place,
consuming no extra lines; otherwise the value is the remainder taken as-is,
consuming no extra lines. -/
theorem c1_value_dispatch_priority (fuel : Nat) (lines : List Str) (i : Nat)
    (valPart : Str) (typeAnn : Option Str) :
    (fence.isPrefixOf valPart = true →
      parse_value (fuel + 1) lines i valPart typeAnn =
        omapR Value.scalar (parse_multiline fuel lines (i + 1) typeAnn))
    ∧ (fence.isPrefixOf valPart = false → valPart = ['\x7b'] →
      parse_value (fuel + 1) lines i valPart typeAnn =
        omapR Value.block (parse_block fuel lines (i + 1) []))
    ∧ (fence.isPrefixOf valPart = false → valPart ≠ ['\x7b'] → valPart = ['['] →
      parse_value (fuel + 1) lines i valPart typeAnn =
        omapR Value.list (parse_list fuel lines (i + 1) []))
    ∧ (fence.isPrefixOf valPart = false → valPart ≠ ['\x7b'] → valPart ≠ ['['] →
      (['['].isPrefixOf valPart && [']'].isSuffixOf valPart) = true →
      parse_value (fuel + 1) lines i valPart typeAnn =
        some (Except.ok (Value.list (parse_inline_list valPart), i + 1)))
    ∧ (fence.isPrefixOf valPart = false → valPart ≠ ['\x7b'] → valPart ≠ ['['] →
      (['['].isPrefixOf valPart && [']'].isSuffixOf valPart) = false →
      parse_value (fuel + 1) lines i valPart typeAnn =
        some (Except.ok (Value.scalar valPart, i + 1))) := by
  refine ⟨?_, ?_, ?_, ?_, ?_⟩
  · intro h1
    simp only [parse_value]
    rw [if_pos h1]
  · intro h1 h2
    subst h2
    rfl
  · intro h1 h2 h3
    subst h3
    rfl
  · intro h1 h2 h3 h4
    simp only [parse_value]
    rw [if_neg (by simp [h1]), if_neg h2, if_neg h3, if_pos h4]
  · intro h1 h2 h3 h4
    simp only [parse_value]
    rw [if_neg (by simp [h1]), if_neg h2, if_neg h3, if_neg (by simp [h4])]

theorem isEmpty_eq_true_iff (l : Str) : l.isEmpty = true ↔ l = [] := by
  cases l <;> simp

theorem mem_takeWhile_pred {p : Char → Bool} :
    ∀ (l : Str) (x : Char), x ∈ l.takeWhile p → p x = true := by
  intro l
  induction l with
  | nil => simp
  | cons a as ih =>
    intro x hx
    rw [List.takeWhile_cons] at hx
    split at hx
    · rcases List.mem_cons.mp hx with rfl | hx2
      · assumption
      · exact ih x hx2
    · exact absurd hx (List.not_mem_nil x)

/-- `l.strip()` prepended to the stripped-off trailing whitespace recovers
`l.lstrip()`. -/
theorem pyStrip_decomp (l : Str) :
    l.dropWhile isPySpace
      = pyStrip l ++ ((l.dropWhile isPySpace).reverse.takeWhile isPySpace).reverse := by
  unfold pyStrip
  rw [← List.reverse_append, List.takeWhile_append_dropWhile, List.reverse_reverse]

theorem takeWhile_not_space_of_all_space (w : Str)
    (h : ∀ x ∈ w, isPySpace x = true) : w.takeWhile (fun c => !isPySpace c) = [] := by
  cases w with
  | nil => rfl
  | cons a as => simp [List.takeWhile_cons, h a (List.mem_cons_self a as)]

theorem dropWhile_not_space_of_all_space (w : Str)
    (h : ∀ x ∈ w, isPySpace x = true) : w.dropWhile (fun c => !isPySpace c) = w := by
  cases w with
  | nil => rfl
  | cons a as => simp [List.dropWhile_cons, h a (List.mem_cons_self a as)]

theorem dropWhile_space_of_all_space (w : Str)
    (h : ∀ x ∈ w, isPySpace x = true) : w.dropWhile isPySpace = [] := by
  induction w with
  | nil => rfl
  | cons a as ih =>
    rw [List.dropWhile_cons, if_pos (h a (List.mem_cons_self a as))]
    exact ih (fun x hx => h x (List.mem_cons_of_mem a hx))

/-- Key/Value splitting agrees with the amended description
(`split_key_value_amended`): shared helper for C5 and C10. -/
theorem split_key_value_eq_amended (line : Str) :
    split_key_value line = split_key_value_amended line := by
  by_cases h1 : (line.dropWhile isPySpace).isEmpty = true
  · have h1' : line.dropWhile isPySpace = [] := (isEmpty_eq_true_iff _).mp h1
    have hsplit : pySplitWs1 line = [] := by
      unfold pySplitWs1; rw [if_pos h1]
    unfold split_key_value split_key_value_amended
    rw [hsplit, h1']
    simp
  · by_cases h2 : (((line.dropWhile isPySpace).dropWhile
        (fun c => !isPySpace c)).dropWhile isPySpace).isEmpty = true
    · have h2' := (isEmpty_eq_true_iff _).mp h2
      have hsplit : pySplitWs1 line =
          [(line.dropWhile isPySpace).takeWhile (fun c => !isPySpace c)] := by
        unfold pySplitWs1; rw [if_neg h1, if_pos h2]
      unfold split_key_value split_key_value_amended
      rw [hsplit, h2']
    · have hsplit : pySplitWs1 line =
          [(line.dropWhile isPySpace).takeWhile (fun c => !isPySpace c),
           ((line.dropWhile isPySpace).dropWhile (fun c => !isPySpace c)).dropWhile isPySpace] := by
        unfold pySplitWs1; rw [if_neg h1, if_neg h2]
      unfold split_key_value split_key_value_amended
      rw [hsplit]

/-- A raw line whose stripped form is the single non-space character `c`
splits into key token `[c]` and empty remainder: shared helper for C10. -/
theorem split_key_value_of_strip_singleton (l : Str) (c : Char)
    (hc : isPySpace c = false) (h : pyStrip l = [c]) :
    split_key_value l = ([c], []) := by
  have hdec := pyStrip_decomp l
  rw [h] at hdec
  have hw2space : ∀ x ∈ ((l.dropWhile isPySpace).reverse.takeWhile isPySpace).reverse,
      isPySpace x = true := by
    intro x hx
    exact mem_takeWhile_pred _ x (List.mem_reverse.mp hx)
  rw [split_key_value_eq_amended]
  unfold split_key_value_amended
  rw [hdec]
  simp only [List.cons_append, List.nil_append, List.takeWhile_cons, List.dropWhile_cons,
    hc, Bool.not_false, if_true, Bool.false_eq_true, if_false]
  rw [takeWhile_not_space_of_all_space _ hw2space,
    dropWhile_not_space_of_all_space _ hw2space,
    dropWhile_space_of_all_space _ hw2space]

/-- Stripping is the identity on a token that starts and ends with a
non-space character: shared helper for C8. -/
theorem pyStrip_of_ends (x y : Char) (m : Str)
    (hx : isPySpace x = false) (hy : isPySpace y = false) :
    pyStrip (x :: (m ++ [y])) = x :: (m ++ [y]) := by
  unfold pyStrip
  have h1 : (x :: (m ++ [y])).dropWhile isPySpace = x :: (m ++ [y]) := by
    rw [List.dropWhile_cons, if_neg (by simp [hx])]
  rw [h1]
  have h2 : (x :: (m ++ [y])).reverse = y :: (m.reverse ++ [x]) := by
    simp
  rw [h2, List.dropWhile_cons, if_neg (by simp [hy]), ← h2, List.reverse_reverse]

/-- Witness for C1: the inline-list rule applied to the remainder `[a]`
(which starts with `[`, ends with `]`, and is not a lone `[`): parsed in
place, consuming no extra lines. -/
theorem c1_witness :
    fence.isPrefixOf (("[a]").toList) = false
    ∧ (['['].isPrefixOf (("[a]").toList) && [']'].isSuffixOf (("[a]").toList)) = true
    ∧ parse_value 1 [] 0 (("[a]").toList) none =
        some (Except.ok (Value.list [Value.scalar ['a']], 1)) := by
  refine ⟨rfl, rfl, ?_⟩
  have := (c1_value_dispatch_priority 0 [] 0 (("[a]").toList) none).2.2.2.1
    rfl (by decide) (by decide) rfl
  simpa using this

/-! ### Inversion helpers for the fuel-indexed results -/

theorem bindR_eq_ok {α β : Type} {x : Option (Except Str (α × Nat))}
    {f : α × Nat → Option (Except Str (β × Nat))} {r : β × Nat}
    (h : bindR x f = some (Except.ok r)) :
    ∃ s, x = some (Except.ok s) ∧ f s = some (Except.ok r) := by
  unfold bindR at h
  rcases x with _ | e
  · simp at h
  · rcases e with e | s
    · simp at h
    · exact ⟨s, rfl, h⟩

theorem omapR_eq_ok {α β : Type} {g : α → β} {x : Option (Except Str (α × Nat))}
    {r : β × Nat} (h : omapR g x = some (Except.ok r)) :
    ∃ a, x = some (Except.ok (a, r.2)) ∧ r.1 = g a := by
  obtain ⟨r1, r2⟩ := r
  unfold omapR at h
  rcases x with _ | e
  · simp at h
  · rcases e with e | ⟨a, j⟩
    · simp at h
    · simp only [Option.some.injEq, Except.ok.injEq, Prod.mk.injEq] at h
      obtain ⟨h1, h2⟩ := h
      exact ⟨a, by rw [h2], h1.symm⟩

theorem parse_multiline_eq_ok {fuel : Nat} {lines : List Str} {i : Nat}
    {typeAnn : Option Str} {r : Str × Nat}
    (h : parse_multiline fuel lines i typeAnn = some (Except.ok r)) :
    ∃ c, parse_multiline_lines fuel lines i = some (c, r.2) := by
  obtain ⟨r1, r2⟩ := r
  unfold parse_multiline at h
  rcases hml : parse_multiline_lines fuel lines i with _ | ⟨c, j⟩ <;> rw [hml] at h
  · simp at h
  · refine ⟨c, ?_⟩
    rcases typeAnn with _ | a
    · simp only [Option.some.injEq, Except.ok.injEq, Prod.mk.injEq] at h
      rw [h.2]
    · simp only [] at h
      split at h
      · rcases hint : pyIntOfDigits a with n | e <;> rw [hint] at h <;> simp only [Option.some.injEq, Except.ok.injEq, Prod.mk.injEq] at h
        · exact absurd h (by simp)
        · rw [h.2]
      · simp only [Option.some.injEq, Except.ok.injEq, Prod.mk.injEq] at h
        rw [h.2]

theorem omapR_isSome {α β : Type} (g : α → β) (x : Option (Except Str (α × Nat))) :
    (omapR g x).isSome = x.isSome := by
  unfold omapR
  rcases x with _ | e
  · rfl
  · rcases e with e | ⟨a, j⟩ <;> rfl

theorem parse_multiline_isSome (fuel : Nat) (lines : List Str) (i : Nat)
    (typeAnn : Option Str) :
    (parse_multiline fuel lines i typeAnn).isSome
      = (parse_multiline_lines fuel lines i).isSome := by
  unfold parse_multiline
  rcases hml : parse_multiline_lines fuel lines i with _ | ⟨c, j⟩
  · rfl
  · rcases typeAnn with _ | a
    · rfl
    · simp only []
      split
      · rcases pyIntOfDigits a with n | e <;> rfl
      · rfl

theorem bindR_isSome {α β : Type} {x : Option (Except Str (α × Nat))}
    {f : α × Nat → Option (Except Str (β × Nat))}
    (hx : x.isSome = true)
    (hf : ∀ s, x = some (Except.ok s) → (f s).isSome = true) :
    (bindR x f).isSome = true := by
  unfold bindR
  rcases x with _ | e
  · simp at hx
  · rcases e with e | s
    · rfl
    · exact hf s rfl

/-! ### Cursor bounds: every successful sub-parse advances the cursor and
stays inside the line array (shared backbone of C3 and C9). -/

theorem bounds_lemma (fuel : Nat) : ∀ (lines : List Str),
    (∀ i r, parse_multiline_lines fuel lines i = some r → i ≤ lines.length →
      i ≤ r.2 ∧ r.2 ≤ lines.length ∧ (i < lines.length → i < r.2))
    ∧ (∀ i valPart typeAnn r, parse_value fuel lines i valPart typeAnn = some (Except.ok r) →
        i < lines.length → i < r.2 ∧ r.2 ≤ lines.length)
    ∧ (∀ i r, parse_line fuel lines i = some (Except.ok r) →
        i < lines.length → i < r.2 ∧ r.2 ≤ lines.length)
    ∧ (∀ i acc r, parse_block fuel lines i acc = some (Except.ok r) → i ≤ lines.length →
        i ≤ r.2 ∧ r.2 ≤ lines.length ∧ (i < lines.length → i < r.2))
    ∧ (∀ i acc r, parse_list fuel lines i acc = some (Except.ok r) → i ≤ lines.length →
        i ≤ r.2 ∧ r.2 ≤ lines.length ∧ (i < lines.length → i < r.2)) := by
  induction fuel with
  | zero =>
    intro lines
    refine ⟨?_, ?_, ?_, ?_, ?_⟩
    · intro i r h hle; simp [parse_multiline_lines] at h
    · intro i v t r h hlt; simp [parse_value] at h
    · intro i r h hlt; simp [parse_line] at h
    · intro i acc r h hle; simp [parse_block] at h
    · intro i acc r h hle; simp [parse_list] at h
  | succ fuel ih =>
    intro lines
    obtain ⟨ihm, ihv, ihl, ihb, ihs⟩ := ih lines
    refine ⟨?_, ?_, ?_, ?_, ?_⟩
    · -- parse_multiline_lines
      intro i r h hle
      obtain ⟨rc, rj⟩ := r
      simp only [parse_multiline_lines] at h
      split at h
      · rename_i hlt
        split at h
        · simp only [Option.some.injEq, Prod.mk.injEq] at h
          obtain ⟨-, hj⟩ := h
          exact ⟨by omega, by omega, fun _ => by omega⟩
        · rcases hrec : parse_multiline_lines fuel lines (i + 1) with _ | ⟨c1, j1⟩ <;>
            rw [hrec] at h
          · simp at h
          · simp only [Option.some.injEq, Prod.mk.injEq] at h
            obtain ⟨-, hj⟩ := h
            obtain ⟨t1, t2, -⟩ := ihm (i + 1) (c1, j1) hrec (by omega)
            exact ⟨by omega, by omega, fun _ => by omega⟩
      · rename_i hge
        simp only [Option.some.injEq, Prod.mk.injEq] at h
        obtain ⟨-, hj⟩ := h
        exact ⟨by omega, by omega, fun hlt => absurd hlt hge⟩
    · -- parse_value
      intro i valPart typeAnn r h hlt
      obtain ⟨rv, rj⟩ := r
      simp only [parse_value] at h
      split at h
      · obtain ⟨a, hx, -⟩ := omapR_eq_ok h
        obtain ⟨c, hml⟩ := parse_multiline_eq_ok hx
        obtain ⟨t1, t2, -⟩ := ihm (i + 1) (c, rj) hml (by omega)
        exact ⟨by omega, by omega⟩
      · split at h
        · obtain ⟨b, hx, -⟩ := omapR_eq_ok h
          obtain ⟨t1, t2, -⟩ := ihb (i + 1) [] (b, rj) hx (by omega)
          exact ⟨by omega, by omega⟩
        · split at h
          · obtain ⟨l, hx, -⟩ := omapR_eq_ok h
            obtain ⟨t1, t2, -⟩ := ihs (i + 1) [] (l, rj) hx (by omega)
            exact ⟨by omega, by omega⟩
          · split at h
            · simp only [Option.some.injEq, Except.ok.injEq, Prod.mk.injEq] at h
              obtain ⟨-, hj⟩ := h
              exact ⟨by omega, by omega⟩
            · simp only [Option.some.injEq, Except.ok.injEq, Prod.mk.injEq] at h
              obtain ⟨-, hj⟩ := h
              exact ⟨by omega, by omega⟩
    · -- parse_line
      intro i r h hlt
      obtain ⟨rn, rj⟩ := r
      simp only [parse_line] at h
      obtain ⟨s, hs, hk⟩ := bindR_eq_ok h
      simp only [Option.some.injEq, Except.ok.injEq, Prod.mk.injEq] at hk
      obtain ⟨-, hj⟩ := hk
      obtain ⟨t1, t2⟩ := ihv i _ _ s hs hlt
      exact ⟨by omega, by omega⟩
    · -- parse_block
      intro i acc r h hle
      obtain ⟨rb, rj⟩ := r
      simp only [parse_block] at h
      split at h
      · rename_i hlt
        split at h
        · simp only [Option.some.injEq, Except.ok.injEq, Prod.mk.injEq] at h
          obtain ⟨-, hj⟩ := h
          exact ⟨by omega, by omega, fun _ => by omega⟩
        · split at h
          · obtain ⟨t1, t2, -⟩ := ihb (i + 1) acc (rb, rj) h (by omega)
            exact ⟨by omega, by omega, fun _ => by omega⟩
          · obtain ⟨s, hs, hk⟩ := bindR_eq_ok h
            obtain ⟨u1, u2⟩ := ihl i s hs hlt
            obtain ⟨v1, v2, -⟩ := ihb s.2 _ (rb, rj) hk (by omega)
            exact ⟨by omega, by omega, fun _ => by omega⟩
      · rename_i hge
        simp only [Option.some.injEq, Except.ok.injEq, Prod.mk.injEq] at h
        obtain ⟨-, hj⟩ := h
        exact ⟨by omega, by omega, fun hlt => absurd hlt hge⟩
    · -- parse_list
      intro i acc r h hle
      obtain ⟨rb, rj⟩ := r
      simp only [parse_list] at h
      split at h
      · rename_i hlt
        split at h
        · simp only [Option.some.injEq, Except.ok.injEq, Prod.mk.injEq] at h
          obtain ⟨-, hj⟩ := h
          exact ⟨by omega, by omega, fun _ => by omega⟩
        · split at h
          · obtain ⟨t1, t2, -⟩ := ihs (i + 1) acc (rb, rj) h (by omega)
            exact ⟨by omega, by omega, fun _ => by omega⟩
          · split at h
            · obtain ⟨t1, t2, -⟩ := ihs (i + 1) _ (rb, rj) h (by omega)
              exact ⟨by omega, by omega, fun _ => by omega⟩
            · split at h
              · obtain ⟨s, hs, hk⟩ := bindR_eq_ok h
                obtain ⟨u1, u2, -⟩ := ihb (i + 1) [] s hs (by omega)
                obtain ⟨v1, v2, -⟩ := ihs s.2 _ (rb, rj) hk (by omega)
                exact ⟨by omega, by omega, fun _ => by omega⟩
              · obtain ⟨t1, t2, -⟩ := ihs (i + 1) _ (rb, rj) h (by omega)
                exact ⟨by omega, by omega, fun _ => by omega⟩
      · rename_i hge
        simp only [Option.some.injEq, Except.ok.injEq, Prod.mk.injEq] at h
        obtain ⟨-, hj⟩ := h
        exact ⟨by omega, by omega, fun hlt => absurd hlt hge⟩

/-! ### Fuel sufficiency: the canonical fuel `3 * lines.length + 1` used by
`parse_document` always suffices, so the fuel is inert. -/

theorem fuel_sufficient (fuel : Nat) : ∀ (lines : List Str),
    (∀ i, i ≤ lines.length → lines.length - i + 1 ≤ fuel →
      (parse_multiline_lines fuel lines i).isSome = true)
    ∧ (∀ i valPart typeAnn, i < lines.length → 3 * (lines.length - i) - 1 ≤ fuel →
      (parse_value fuel lines i valPart typeAnn).isSome = true)
    ∧ (∀ i, i < lines.length → 3 * (lines.length - i) ≤ fuel →
      (parse_line fuel lines i).isSome = true)
    ∧ (∀ i acc, i ≤ lines.length → 3 * (lines.length - i) + 1 ≤ fuel →
      (parse_block fuel lines i acc).isSome = true)
    ∧ (∀ i acc, i ≤ lines.length → 3 * (lines.length - i) + 1 ≤ fuel →
      (parse_list fuel lines i acc).isSome = true)
    ∧ (∀ i nodes, i ≤ lines.length → 3 * (lines.length - i) + 1 ≤ fuel →
      (parse_doc fuel lines i nodes).isSome = true) := by
  induction fuel with
  | zero =>
    intro lines
    refine ⟨?_, ?_, ?_, ?_, ?_, ?_⟩ <;> intro i <;> intros <;> exfalso <;> omega
  | succ fuel ih =>
    intro lines
    obtain ⟨ihm, ihv, ihl, ihb, ihs, ihd⟩ := ih lines
    obtain ⟨bm, bv, bl, bb, bs⟩ := bounds_lemma fuel lines
    refine ⟨?_, ?_, ?_, ?_, ?_, ?_⟩
    · intro i hle hfuel
      simp only [parse_multiline_lines]
      split
      · rename_i hlt
        split
        · rfl
        · rcases hrec : parse_multiline_lines fuel lines (i + 1) with _ | ⟨c, j⟩
          · have := ihm (i + 1) (by omega) (by omega)
            rw [hrec] at this
            simp at this
          · rfl
      · rfl
    · intro i valPart typeAnn hlt hfuel
      simp only [parse_value]
      split
      · rw [omapR_isSome, parse_multiline_isSome]
        exact ihm (i + 1) (by omega) (by omega)
      · split
        · rw [omapR_isSome]
          exact ihb (i + 1) [] (by omega) (by omega)
        · split
          · rw [omapR_isSome]
            exact ihs (i + 1) [] (by omega) (by omega)
          · split
            · rfl
            · rfl
    · intro i hlt hfuel
      simp only [parse_line]
      apply bindR_isSome
      · exact ihv i _ _ hlt (by omega)
      · intro s hs
        rfl
    · intro i acc hle hfuel
      simp only [parse_block]
      split
      · rename_i hlt
        split
        · rfl
        · split
          · exact ihb (i + 1) acc (by omega) (by omega)
          · apply bindR_isSome
            · exact ihl i hlt (by omega)
            · intro s hs
              obtain ⟨u1, u2⟩ := bl i s hs hlt
              exact ihb s.2 _ (by omega) (by omega)
      · rfl
    · intro i acc hle hfuel
      simp only [parse_list]
      split
      · rename_i hlt
        split
        · rfl
        · split
          · exact ihs (i + 1) acc (by omega) (by omega)
          · split
            · exact ihs (i + 1) _ (by omega) (by omega)
            · split
              · apply bindR_isSome
                · exact ihb (i + 1) [] (by omega) (by omega)
                · intro s hs
                  obtain ⟨u1, u2, -⟩ := bb (i + 1) [] s hs (by omega)
                  exact ihs s.2 _ (by omega) (by omega)
              · exact ihs (i + 1) _ (by omega) (by omega)
      · rfl
    · intro i nodes hle hfuel
      simp only [parse_doc]
      split
      · rename_i hlt
        split
        · exact ihd (i + 1) nodes (by omega) (by omega)
        · split
          · exact ihd (i + 1) nodes (by omega) (by omega)
          · rcases hrec : parse_line fuel lines i with _ | er
            · have := ihl i hlt (by omega)
              rw [hrec] at this
              simp at this
            · rcases er with e | s
              · rfl
              · obtain ⟨u1, u2⟩ := bl i s hrec hlt
                exact ihd s.2 _ (by omega) (by omega)
      · rfl

/-! ### Claim C5: the Key/Value Line Splitter -/

/-- Counterexample for C5: on the raw line `" a b"` (leading whitespace, as
in any indented block body) the claimed split on the *first* run of
whitespace would give key token `""` and remainder `"a b"`, but
`_split_key_value` (via `line.split(None, 1)`) skips the leading
whitespace and returns `("a", "b")`. -/
theorem c5_counterexample :
    split_key_value [' ', 'a', ' ', 'b'] = (['a'], ['b'])
    ∧ splitC5spec [' ', 'a', ' ', 'b'] = ([], ['a', ' ', 'b'])
    ∧ split_key_value [' ', 'a', ' ', 'b'] ≠ splitC5spec [' ', 'a', ' ', 'b'] := by
  refine ⟨rfl, rfl, ?_⟩
  decide

/-- Amended claim C5: the splitter first skips leading whitespace; the key
token is the first whitespace-delimited word of the raw line (the whole
stripped-from-the-left line when it contains no further whitespace, empty
for a blank line), and the remainder is everything after the whitespace run
following that word, verbatim — kept with trailing whitespace and not
re-trimmed — and empty when nothing follows. -/
theorem c5_split_key_value_amended (line : Str) :
    split_key_value line = split_key_value_amended line :=
  split_key_value_eq_amended line

/-! ### Claim C8: the Inline List Tokenizer -/

/-- Claim C8: on a token that begins with `[` and ends with `]`, the
tokenizer strips the outer brackets; if the remaining content is empty or
all-whitespace the result is the empty list, otherwise the content is split
on every `,` and each piece trimmed, giving a flat list of `Scalar` strings
(no nesting, no comma escaping). -/
theorem c8_inline_list_tokenizer (s : Str)
    (hpre : ['['].isPrefixOf s = true) (hsuf : [']'].isSuffixOf s = true) :
    ((pyStrip ((s.drop 1).dropLast)).isEmpty = true → parse_inline_list s = [])
    ∧ ((pyStrip ((s.drop 1).dropLast)).isEmpty = false →
        parse_inline_list s =
          (splitOnChar ',' ((s.drop 1).dropLast)).map (fun item => Value.scalar (pyStrip item))) := by
  obtain ⟨t, ht⟩ : ∃ t, s = '[' :: t := by
    obtain ⟨t, ht⟩ := List.isPrefixOf_iff_prefix.mp hpre
    exact ⟨t, ht.symm⟩
  obtain ⟨t', ht'⟩ : ∃ t', s = t' ++ [']'] := by
    obtain ⟨t', ht'⟩ := List.isSuffixOf_iff_suffix.mp hsuf
    exact ⟨t', ht'.symm⟩
  have hstrip : pyStrip s = s := by
    cases t' with
    | nil =>
      rw [ht'] at ht
      exact absurd (List.head_eq_of_cons_eq ht.symm) (by decide)
    | cons a m =>
      have ha : a = '[' := by
        rw [ht'] at ht
        exact (List.head_eq_of_cons_eq ht.symm).symm
      rw [ht', ha, List.cons_append]
      exact pyStrip_of_ends '[' ']' m rfl rfl
  constructor
  · intro hempty
    unfold parse_inline_list
    rw [hstrip, if_pos hempty]
  · intro hempty
    unfold parse_inline_list
    rw [hstrip, if_neg (by rw [hempty]; simp)]

/-- Witness for C8: the token `[a, b]` splits on the comma into the trimmed
scalars `a` and `b`. -/
theorem c8_witness :
    ['['].isPrefixOf (("[a, b]").toList) = true
    ∧ (pyStrip ((("[a, b]").toList.drop 1).dropLast)).isEmpty = false
    ∧ parse_inline_list (("[a, b]").toList) = [Value.scalar ['a'], Value.scalar ['b']] := by
  refine ⟨rfl, rfl, ?_⟩
  have := (c8_inline_list_tokenizer (("[a, b]").toList) rfl rfl).2 rfl
  simpa using this

/-! ### Claim C6: numeric type annotations on multiline values -/

/-- Counterexample for C6: the superscript `²` (U+00B2) is not a decimal
digit, so by the claim the annotation `²` should leave the multiline text
unmodified; but Python's `"²".isdigit()` is `True`, so the source calls
`int("²")`, which raises `ValueError` — the multiline parse fails instead
of returning the text. -/
theorem c6_counterexample :
    parse_multiline 3 [['x']] 0 (some ['²']) = some (Except.error (intErrMsg ['²']))
    ∧ parse_multiline 3 [['x']] 0 (some ['²']) ≠ some (Except.ok ((['x'] : Str), 1)) := by
  refine ⟨rfl, ?_⟩
  intro h
  rw [(rfl : parse_multiline 3 [['x']] 0 (some ['²']) = some (Except.error (intErrMsg ['²'])))] at h
  exact Except.noConfusion (Option.some.inj h)

/-- Amended claim C6: writing `text` for the joined multiline content — if
the annotation is non-null and consists entirely of decimal digits (Unicode
decimal digits `Nd`, not necessarily ASCII), the Dedent Transform runs with
the annotation's integer value; if the annotation is absent, empty, or
contains any character that Python's `isdigit` rejects, the text is left
unmodified.  The one departure from the claim as stated: an annotation all
of whose characters are `isdigit` but that contains a non-decimal digit
(such as `²`) is neither dedented nor left unmodified — `int()` raises
`ValueError` there and the multiline parse fails with that error. -/
theorem c6_multiline_annotation_amended (fuel : Nat) (lines : List Str) (i : Nat)
    (r : List Str × Nat) (h : parse_multiline_lines fuel lines i = some r) :
    (parse_multiline fuel lines i none = some (Except.ok (joinNl r.1, r.2)))
    ∧ (∀ a, a.isEmpty = true ∨ pyIsDigit a = false →
        parse_multiline fuel lines i (some a) = some (Except.ok (joinNl r.1, r.2)))
    ∧ (∀ a, pyIsDigit a = true → a.all pyIsDecimalChar = true →
        parse_multiline fuel lines i (some a) =
          some (Except.ok (dedent (joinNl r.1) (digitsVal a), r.2)))
    ∧ (∀ a, pyIsDigit a = true → a.all pyIsDecimalChar = false →
        parse_multiline fuel lines i (some a) = some (Except.error (intErrMsg a))) := by
  obtain ⟨content, j⟩ := r
  refine ⟨?_, ?_, ?_, ?_⟩
  · unfold parse_multiline
    rw [h]
  · intro a ha
    have hcond : (!a.isEmpty && pyIsDigit a) = false := by
      rcases ha with ha | ha <;> simp [ha]
    unfold parse_multiline
    rw [h]
    simp only [hcond, Bool.false_eq_true, if_false]
  · intro a hdig hdec
    have hne : a.isEmpty = false := by
      cases hae : a.isEmpty
      · rfl
      · unfold pyIsDigit at hdig
        rw [hae] at hdig
        simp at hdig
    have hcond : (!a.isEmpty && pyIsDigit a) = true := by simp [hne, hdig]
    unfold parse_multiline
    rw [h]
    simp only [hcond, if_true]
    unfold pyIntOfDigits
    rw [if_pos hdec]
  · intro a hdig hdec
    have hne : a.isEmpty = false := by
      cases hae : a.isEmpty
      · rfl
      · unfold pyIsDigit at hdig
        rw [hae] at hdig
        simp at hdig
    have hcond : (!a.isEmpty && pyIsDigit a) = true := by simp [hne, hdig]
    unfold parse_multiline
    rw [h]
    simp only [hcond, if_true]
    unfold pyIntOfDigits
    rw [if_neg (by simp [hdec])]

/-- Witness for C6 (amended): on the body `"  ab"`, the annotation `2`
dedents by 2 to `"ab"`, the Arabic-Indic annotation `٢` (U+0662, a
non-ASCII decimal digit that Python's `int()` converts to 2) dedents by 2
just the same, and the digit-only annotation `²` raises. -/
theorem c6_witness :
    parse_multiline_lines 3 [(("  ab").toList), fence] 0 = some ([("  ab").toList], 2)
    ∧ pyIsDigit ['2'] = true
    ∧ parse_multiline 3 [(("  ab").toList), fence] 0 (some ['2']) =
        some (Except.ok ((("ab").toList), 2))
    ∧ pyIsDigit ['٢'] = true ∧ (['٢'].all pyIsDecimalChar) = true ∧ digitsVal ['٢'] = 2
    ∧ parse_multiline 3 [(("  ab").toList), fence] 0 (some ['٢']) =
        some (Except.ok ((("ab").toList), 2))
    ∧ pyIsDigit ['²'] = true ∧ (['²'].all pyIsDecimalChar) = false
    ∧ parse_multiline 3 [(("  ab").toList), fence] 0 (some ['²']) =
        some (Except.error (intErrMsg ['²'])) := by
  refine ⟨rfl, rfl, ?_, rfl, rfl, rfl, ?_, rfl, rfl, ?_⟩
  · have := (c6_multiline_annotation_amended 3 [(("  ab").toList), fence] 0
      ([("  ab").toList], 2) rfl).2.2.1 ['2'] rfl rfl
    simpa using this
  · have := (c6_multiline_annotation_amended 3 [(("  ab").toList), fence] 0
      ([("  ab").toList], 2) rfl).2.2.1 ['٢'] rfl rfl
    simpa using this
  · exact (c6_multiline_annotation_amended 3 [(("  ab").toList), fence] 0
      ([("  ab").toList], 2) rfl).2.2.2 ['²'] rfl rfl

/-! ### Claim C10: closers are context-sensitive -/

/-- Claim C10: stray closers are skipped only at the top level.  Inside a
block body a line stripping to `]` does not close anything: it is parsed as
a node with key `]` and empty scalar value and assigned into the block;
inside a list body a line stripping to `}` is appended as the scalar `}`;
and the top-level loop skips both.  (Only `}` closes a block and only `]`
closes a list: the block steps over `]` and the list steps over `}`.) -/
theorem c10_closers_context_sensitive (fuel : Nat) (lines : List Str) (i : Nat) :
    (pyStrip (lines.getD i []) = [']'] →
      parse_line (fuel + 1 + 1) lines i =
        some (Except.ok ({ key := [']'], value := Value.scalar [], typeAnn := none }, i + 1)))
    ∧ (∀ acc, i < lines.length → pyStrip (lines.getD i []) = [']'] →
      parse_block (fuel + 1 + 1 + 1) lines i acc =
        parse_block (fuel + 1 + 1) lines (i + 1) (blockInsert acc [']'] (Value.scalar [])))
    ∧ (∀ acc, i < lines.length → pyStrip (lines.getD i []) = ['\x7d'] →
      parse_list (fuel + 1) lines i acc =
        parse_list fuel lines (i + 1) (acc ++ [Value.scalar ['\x7d']]))
    ∧ (∀ nodes, i < lines.length →
        pyStrip (lines.getD i []) = ['\x7d'] ∨ pyStrip (lines.getD i []) = [']'] →
      parse_doc (fuel + 1) lines i nodes = parse_doc fuel lines (i + 1) nodes) := by
  have hline : pyStrip (lines.getD i []) = [']'] →
      parse_line (fuel + 1 + 1) lines i =
        some (Except.ok ({ key := [']'], value := Value.scalar [], typeAnn := none }, i + 1)) := by
    intro h
    have hsp := split_key_value_of_strip_singleton (lines.getD i []) ']' rfl h
    conv_lhs => rw [parse_line]
    rw [hsp]
    rfl
  refine ⟨hline, ?_, ?_, ?_⟩
  · intro acc hlen h
    conv_lhs => rw [parse_block]
    rw [if_pos hlen, h]
    rw [if_neg (by decide), if_neg (by decide)]
    rw [hline h]
    rfl
  · intro acc hlen h
    conv_lhs => rw [parse_list]
    rw [if_pos hlen, h]
    rw [if_neg (by decide), if_neg (by decide), if_neg (by decide), if_neg (by decide)]
  · intro nodes hlen h
    conv_lhs => rw [parse_doc]
    rw [if_pos hlen]
    rcases h with h | h <;> rw [h] <;>
      rw [if_neg (by decide), if_pos (by decide)]

/-- Witness for C10: in `a {` / `]` / `}` the `]` line becomes the block
entry `("]", "")`; in a list, a `}` line becomes the scalar element `}`;
and both closers are skipped at top level. -/
theorem c10_witness :
    parse_block 4 [[']'], ['\x7d']] 0 [] =
      parse_block 3 [[']'], ['\x7d']] 1 [([']'], Value.scalar [])]
    ∧ parse_list 4 [['\x7d'], [']']] 0 [] =
      parse_list 3 [['\x7d'], [']']] 1 [Value.scalar ['\x7d']]
    ∧ parse_doc 3 [[']'], ['a', ' ', 'b']] 0 [] = parse_doc 2 [[']'], ['a', ' ', 'b']] 1 [] := by
  refine ⟨?_, ?_, ?_⟩
  · have := (c10_closers_context_sensitive 1 [[']'], ['\x7d']] 0).2.1 [] (by decide) rfl
    simpa [blockInsert] using this
  · exact (c10_closers_context_sensitive 3 [['\x7d'], [']']] 0).2.2.1 [] (by decide) rfl
  · exact (c10_closers_context_sensitive 2 [[']'], ['a', ' ', 'b']] 0).2.2.2 []
      (by decide) (Or.inr rfl)

/-! ### Claim C9: cursor advance and termination -/

/-- Claim C9: for every line array and every start index within range, each
sub-parser (value dispatch, line pipeline, block, list, multiline reader)
returns a next-cursor strictly greater than its start index and at most the
number of lines; and the canonical fuel used by `parse_document` always
yields a result (the top-level loop advances on every iteration and the
recursion bottoms out), so parsing terminates on every input. -/
theorem c9_cursor_advances_and_terminates :
    (∀ fuel (lines : List Str) i valPart typeAnn r,
        parse_value fuel lines i valPart typeAnn = some (Except.ok r) →
        i < lines.length → i < r.2 ∧ r.2 ≤ lines.length)
    ∧ (∀ fuel (lines : List Str) i r, parse_line fuel lines i = some (Except.ok r) →
        i < lines.length → i < r.2 ∧ r.2 ≤ lines.length)
    ∧ (∀ fuel (lines : List Str) i acc r, parse_block fuel lines i acc = some (Except.ok r) →
        i < lines.length → i < r.2 ∧ r.2 ≤ lines.length)
    ∧ (∀ fuel (lines : List Str) i acc r, parse_list fuel lines i acc = some (Except.ok r) →
        i < lines.length → i < r.2 ∧ r.2 ≤ lines.length)
    ∧ (∀ fuel (lines : List Str) i r, parse_multiline_lines fuel lines i = some r →
        i < lines.length → i < r.2 ∧ r.2 ≤ lines.length)
    ∧ (∀ lines : List Str, (parse_doc (3 * lines.length + 1) lines 0 []).isSome = true) := by
  refine ⟨?_, ?_, ?_, ?_, ?_, ?_⟩
  · intro fuel lines i v t r h hlt
    exact (bounds_lemma fuel lines).2.1 i v t r h hlt
  · intro fuel lines i r h hlt
    exact (bounds_lemma fuel lines).2.2.1 i r h hlt
  · intro fuel lines i acc r h hlt
    obtain ⟨-, t2, t3⟩ := (bounds_lemma fuel lines).2.2.2.1 i acc r h (le_of_lt hlt)
    exact ⟨t3 hlt, t2⟩
  · intro fuel lines i acc r h hlt
    obtain ⟨-, t2, t3⟩ := (bounds_lemma fuel lines).2.2.2.2 i acc r h (le_of_lt hlt)
    exact ⟨t3 hlt, t2⟩
  · intro fuel lines i r h hlt
    obtain ⟨-, t2, t3⟩ := (bounds_lemma fuel lines).1 i r h (le_of_lt hlt)
    exact ⟨t3 hlt, t2⟩
  · intro lines
    exact (fuel_sufficient (3 * lines.length + 1) lines).2.2.2.2.2 0 [] (by omega) (by omega)

/-- Witness for C9: a scalar value dispatch at position 0 of a one-line
array returns cursor 1, strictly past 0 and within bounds. -/
theorem c9_witness :
    parse_value 1 [['a']] 0 ['b'] none = some (Except.ok (Value.scalar ['b'], 1))
    ∧ 0 < (1 : Nat) ∧ (1 : Nat) ≤ 1 := by
  refine ⟨rfl, ?_⟩
  exact c9_cursor_advances_and_terminates.1 1 [['a']] 0 ['b'] none
    (Value.scalar ['b'], 1) rfl (by decide)

/-! ### Claim C3: unterminated constructs close implicitly at end of input -/

theorem mlines_no_fence (fuel : Nat) : ∀ (lines : List Str) i r, i ≤ lines.length →
    (∀ k, i ≤ k → k < lines.length → pyStrip (lines.getD k []) ≠ fence) →
    parse_multiline_lines fuel lines i = some r →
    r.1 = lines.drop i ∧ r.2 = lines.length := by
  induction fuel with
  | zero =>
    intro lines i r hle hnf h
    simp [parse_multiline_lines] at h
  | succ fuel ih =>
    intro lines i r hle hnf h
    obtain ⟨rc, rj⟩ := r
    simp only [parse_multiline_lines] at h
    split at h
    · rename_i hlt
      split at h
      · rename_i hfence
        exact absurd (eq_of_beq hfence) (hnf i (le_refl i) hlt)
      · rcases hrec : parse_multiline_lines fuel lines (i + 1) with _ | ⟨c1, j1⟩ <;>
          rw [hrec] at h
        · simp at h
        · simp only [Option.some.injEq, Prod.mk.injEq] at h
          obtain ⟨hc, hj⟩ := h
          obtain ⟨ih1, ih2⟩ := ih lines (i + 1) (c1, j1) (by omega)
            (fun k hk1 hk2 => hnf k (by omega) hk2) hrec
          constructor
          · rw [← hc]
            simp only at ih1
            rw [ih1, List.getD_eq_getElem lines [] hlt]
            exact (List.drop_eq_getElem_cons hlt).symm
          · simp only at ih2
            omega
    · rename_i hge
      simp only [Option.some.injEq, Prod.mk.injEq] at h
      obtain ⟨hc, hj⟩ := h
      constructor
      · rw [← hc, List.drop_eq_nil_of_le (by omega)]
      · omega

theorem block_no_close (fuel : Nat) : ∀ (lines : List Str) i acc r, i ≤ lines.length →
    (∀ k, i ≤ k → k < lines.length → pyStrip (lines.getD k []) ≠ ['\x7d']) →
    parse_block fuel lines i acc = some (Except.ok r) → r.2 = lines.length := by
  induction fuel with
  | zero =>
    intro lines i acc r hle hnc h
    simp [parse_block] at h
  | succ fuel ih =>
    intro lines i acc r hle hnc h
    obtain ⟨rb, rj⟩ := r
    simp only [parse_block] at h
    split at h
    · rename_i hlt
      split at h
      · rename_i hclose
        exact absurd hclose (hnc i (le_refl i) hlt)
      · split at h
        · exact ih lines (i + 1) acc (rb, rj) (by omega)
            (fun k hk1 hk2 => hnc k (by omega) hk2) h
        · obtain ⟨s, hs, hk⟩ := bindR_eq_ok h
          obtain ⟨u1, u2⟩ := (bounds_lemma fuel lines).2.2.1 i s hs hlt
          exact ih lines s.2 _ (rb, rj) (by omega)
            (fun k hk1 hk2 => hnc k (by omega) hk2) hk
    · rename_i hge
      simp only [Option.some.injEq, Except.ok.injEq, Prod.mk.injEq] at h
      obtain ⟨-, hj⟩ := h
      omega

theorem list_no_close (fuel : Nat) : ∀ (lines : List Str) i acc r, i ≤ lines.length →
    (∀ k, i ≤ k → k < lines.length → pyStrip (lines.getD k []) ≠ [']']) →
    parse_list fuel lines i acc = some (Except.ok r) → r.2 = lines.length := by
  induction fuel with
  | zero =>
    intro lines i acc r hle hnc h
    simp [parse_list] at h
  | succ fuel ih =>
    intro lines i acc r hle hnc h
    obtain ⟨rb, rj⟩ := r
    simp only [parse_list] at h
    split at h
    · rename_i hlt
      split at h
      · rename_i hclose
        exact absurd hclose (hnc i (le_refl i) hlt)
      · split at h
        · exact ih lines (i + 1) acc (rb, rj) (by omega)
            (fun k hk1 hk2 => hnc k (by omega) hk2) h
        · split at h
          · exact ih lines (i + 1) _ (rb, rj) (by omega)
              (fun k hk1 hk2 => hnc k (by omega) hk2) h
          · split at h
            · obtain ⟨s, hs, hk⟩ := bindR_eq_ok h
              obtain ⟨u1, u2, -⟩ := (bounds_lemma fuel lines).2.2.2.1 (i + 1) [] s hs (by omega)
              exact ih lines s.2 _ (rb, rj) (by omega)
                (fun k hk1 hk2 => hnc k (by omega) hk2) hk
            · exact ih lines (i + 1) _ (rb, rj) (by omega)
                (fun k hk1 hk2 => hnc k (by omega) hk2) h
    · rename_i hge
      simp only [Option.some.injEq, Except.ok.injEq, Prod.mk.injEq] at h
      obtain ⟨-, hj⟩ := h
      omega

/-- Claim C3: reaching end of input never aborts a parse.  If no remaining
line strips to the closing fence, the Multiline Reader accumulates exactly
the remaining raw lines and stops at end of input (and it always yields a
result given its fuel bound, never an "unterminated" error); if no
remaining line strips to `}` (resp. `]`), a successful block (resp. list)
parse ends with its cursor at end of input, the construct implicitly closed
with whatever it accumulated. -/
theorem c3_unterminated_constructs_close_at_eoi :
    (∀ fuel (lines : List Str) i r, i ≤ lines.length →
        (∀ k, i ≤ k → k < lines.length → pyStrip (lines.getD k []) ≠ fence) →
        parse_multiline_lines fuel lines i = some r →
        r.1 = lines.drop i ∧ r.2 = lines.length)
    ∧ (∀ (lines : List Str) i fuel, i ≤ lines.length → lines.length - i + 1 ≤ fuel →
        (parse_multiline_lines fuel lines i).isSome = true)
    ∧ (∀ fuel (lines : List Str) i acc r, i ≤ lines.length →
        (∀ k, i ≤ k → k < lines.length → pyStrip (lines.getD k []) ≠ ['\x7d']) →
        parse_block fuel lines i acc = some (Except.ok r) → r.2 = lines.length)
    ∧ (∀ fuel (lines : List Str) i acc r, i ≤ lines.length →
        (∀ k, i ≤ k → k < lines.length → pyStrip (lines.getD k []) ≠ [']']) →
        parse_list fuel lines i acc = some (Except.ok r) → r.2 = lines.length) := by
  refine ⟨?_, ?_, ?_, ?_⟩
  · intro fuel lines i r hle hnf h
    exact mlines_no_fence fuel lines i r hle hnf h
  · intro lines i fuel hle hfuel
    exact (fuel_sufficient fuel lines).1 i hle hfuel
  · intro fuel lines i acc r hle hnc h
    exact block_no_close fuel lines i acc r hle hnc h
  · intro fuel lines i acc r hle hnc h
    exact list_no_close fuel lines i acc r hle hnc h

/-- Witness for C3: a two-line tail with no fence is accumulated whole and
the cursor stops at end of input (position 2 of 2). -/
theorem c3_witness :
    parse_multiline_lines 3 [['x'], ['y']] 0 = some ([['x'], ['y']], 2)
    ∧ (([['x'], ['y']], 2) : List Str × Nat).1 = ([['x'], ['y']] : List Str).drop 0
    ∧ (([['x'], ['y']], 2) : List Str × Nat).2 = ([['x'], ['y']] : List Str).length := by
  refine ⟨rfl, ?_, ?_⟩
  · exact (c3_unterminated_constructs_close_at_eoi.1 3 [['x'], ['y']] 0 ([['x'], ['y']], 2)
      (by decide) (by
        intro k hk1 hk2
        have hk2' : k < 2 := by simpa using hk2
        interval_cases k <;> decide) rfl).1
  · exact (c3_unterminated_constructs_close_at_eoi.1 3 [['x'], ['y']] 0 ([['x'], ['y']], 2)
      (by decide) (by
        intro k hk1 hk2
        have hk2' : k < 2 := by simpa using hk2
        interval_cases k <;> decide) rfl).2

/-! ### Claim C4: fault propagation and top-level wrapping -/

/-- Claim C4: a fault raised anywhere inside the per-line pipeline
propagates unchanged through the value dispatcher, the line pipeline and
the enclosing block/list parsers (it is caught nowhere inside), and the
top-level loop alone catches it, failing with the `ParseError` message
`"line <N>: <cause>"` where `N` is the 1-based index of the top-level line
at which the enclosing top-level node began parsing — not the line where
the fault originated. -/
theorem c4_fault_wrapped_once_at_top_level :
    (∀ fuel (lines : List Str) i nodes e, i < lines.length →
        (pyStrip (lines.getD i [])).isEmpty = false →
        ['#'].isPrefixOf (pyStrip (lines.getD i [])) = false →
        pyStrip (lines.getD i []) ≠ ['\x7d'] →
        pyStrip (lines.getD i []) ≠ [']'] →
        parse_line fuel lines i = some (Except.error e) →
        parse_doc (fuel + 1) lines i nodes = some (Except.error (lineErr i e)))
    ∧ (∀ fuel (lines : List Str) i valPart typeAnn e,
        fence.isPrefixOf valPart = true →
        parse_multiline fuel lines (i + 1) typeAnn = some (Except.error e) →
        parse_value (fuel + 1) lines i valPart typeAnn = some (Except.error e))
    ∧ (∀ fuel (lines : List Str) i typeAnn e,
        parse_block fuel lines (i + 1) [] = some (Except.error e) →
        parse_value (fuel + 1) lines i ['\x7b'] typeAnn = some (Except.error e))
    ∧ (∀ fuel (lines : List Str) i typeAnn e,
        parse_list fuel lines (i + 1) [] = some (Except.error e) →
        parse_value (fuel + 1) lines i ['['] typeAnn = some (Except.error e))
    ∧ (∀ fuel (lines : List Str) i e,
        parse_value fuel lines i (split_key_value (lines.getD i [])).2
          (parse_key_and_type (split_key_value (lines.getD i [])).1).2
          = some (Except.error e) →
        parse_line (fuel + 1) lines i = some (Except.error e))
    ∧ (∀ fuel (lines : List Str) i acc e, i < lines.length →
        pyStrip (lines.getD i []) ≠ ['\x7d'] →
        (pyStrip (lines.getD i [])).isEmpty = false →
        ['#'].isPrefixOf (pyStrip (lines.getD i [])) = false →
        parse_line fuel lines i = some (Except.error e) →
        parse_block (fuel + 1) lines i acc = some (Except.error e))
    ∧ (∀ fuel (lines : List Str) i acc e, i < lines.length →
        pyStrip (lines.getD i []) = ['\x7b'] →
        parse_block fuel lines (i + 1) [] = some (Except.error e) →
        parse_list (fuel + 1) lines i acc = some (Except.error e)) := by
  refine ⟨?_, ?_, ?_, ?_, ?_, ?_, ?_⟩
  · intro fuel lines i nodes e hlt h1 h2 h3 h4 hline
    have hskip : ((pyStrip (lines.getD i [])).isEmpty
        || ['#'].isPrefixOf (pyStrip (lines.getD i []))) = false := by
      rw [h1, h2]; rfl
    have hstray : (decide (pyStrip (lines.getD i []) = ['\x7d'])
        || decide (pyStrip (lines.getD i []) = [']'])) = false := by
      rw [decide_eq_false h3, decide_eq_false h4]; rfl
    conv_lhs => rw [parse_doc]
    rw [if_pos hlt, if_neg (by rw [hskip]; exact Bool.false_ne_true),
      if_neg (by rw [hstray]; exact Bool.false_ne_true), hline]
  · intro fuel lines i valPart typeAnn e hpre hml
    conv_lhs => rw [parse_value]
    rw [if_pos hpre, hml]
    rfl
  · intro fuel lines i typeAnn e hblock
    have hv : parse_value (fuel + 1) lines i ['\x7b'] typeAnn
        = omapR Value.block (parse_block fuel lines (i + 1) []) := rfl
    rw [hv, hblock]
    rfl
  · intro fuel lines i typeAnn e hlist
    have hv : parse_value (fuel + 1) lines i ['['] typeAnn
        = omapR Value.list (parse_list fuel lines (i + 1) []) := rfl
    rw [hv, hlist]
    rfl
  · intro fuel lines i e hv
    conv_lhs => rw [parse_line]
    rw [hv]
    rfl
  · intro fuel lines i acc e hlt h1 h2 h3 hline
    have hskip : ((pyStrip (lines.getD i [])).isEmpty
        || ['#'].isPrefixOf (pyStrip (lines.getD i []))) = false := by
      rw [h2, h3]; rfl
    conv_lhs => rw [parse_block]
    rw [if_pos hlt, if_neg h1, if_neg (by rw [hskip]; exact Bool.false_ne_true), hline]
    rfl
  · intro fuel lines i acc e hlt h hblock
    conv_lhs => rw [parse_list]
    rw [if_pos hlt, h, hblock]
    rfl

/-- Witness for C4: the annotation `²` two lines inside a nested
block/multiline region faults at line 2, yet the `ParseError` message is
`"line 1: ..."` — the 1-based start of the enclosing top-level node — and
the cause text is the `int()` error verbatim. -/
theorem c4_witness :
    parse_line 9 [("k \x7b").toList, (("m!² ").toList ++ fence), ['x']] 0
      = some (Except.error (intErrMsg ['²']))
    ∧ parse_doc 10 [("k \x7b").toList, (("m!² ").toList ++ fence), ['x']] 0 []
      = some (Except.error (lineErr 0 (intErrMsg ['²'])))
    ∧ lineErr 0 (intErrMsg ['²'])
      = ("line 1: invalid literal for int() with base 10: '²'").toList := by
  refine ⟨rfl, ?_, rfl⟩
  exact c4_fault_wrapped_once_at_top_level.1 9
    [("k \x7b").toList, (("m!² ").toList ++ fence), ['x']] 0 [] (intErrMsg ['²'])
    (by decide) rfl rfl (by decide) (by decide) rfl

/-! ### Claim C2: block duplicate keys (last-write-wins, position-stable) -/

theorem omapR_omapR {α β γ : Type} (f : β → γ) (g : α → β)
    (x : Option (Except Str (α × Nat))) :
    omapR f (omapR g x) = omapR (fun a => f (g a)) x := by
  rcases x with _ | e
  · rfl
  · rcases e with e | ⟨a, j⟩ <;> rfl

/-- `_parse_block` is the `blockInsert`-fold of its assignment trace: the
block mapping is obtained by performing the dict assignments of
`block_asgns` in order. -/
theorem parse_block_eq_asgns (fuel : Nat) : ∀ (lines : List Str) (i : Nat)
    (b : List (Str × Value)),
    parse_block fuel lines i b
      = omapR (fun asgn => asgn.foldl (fun bb p => blockInsert bb p.1 p.2) b)
          (block_asgns fuel lines i) := by
  induction fuel with
  | zero => intro lines i b; rfl
  | succ fuel ih =>
    intro lines i b
    simp only [parse_block, block_asgns]
    by_cases hlt : i < lines.length
    · rw [if_pos hlt, if_pos hlt]
      by_cases hclose : pyStrip (lines.getD i []) = ['\x7d']
      · rw [if_pos hclose, if_pos hclose]
        rfl
      · rw [if_neg hclose, if_neg hclose]
        by_cases hskip : ((pyStrip (lines.getD i [])).isEmpty
            || ['#'].isPrefixOf (pyStrip (lines.getD i []))) = true
        · rw [if_pos hskip, if_pos hskip]
          exact ih lines (i + 1) b
        · rw [if_neg hskip, if_neg hskip]
          rcases hpl : parse_line fuel lines i with _ | er
          · rfl
          · rcases er with e | s
            · rfl
            · have h1 : bindR (some (Except.ok s))
                  (fun r => parse_block fuel lines r.2 (blockInsert b r.1.key r.1.value))
                  = parse_block fuel lines s.2 (blockInsert b s.1.key s.1.value) := rfl
              have h2 : bindR (some (Except.ok s))
                  (fun r => omapR (fun asgn => (r.1.key, r.1.value) :: asgn)
                    (block_asgns fuel lines r.2))
                  = omapR (fun asgn => (s.1.key, s.1.value) :: asgn)
                      (block_asgns fuel lines s.2) := rfl
              rw [h1, h2, ih lines s.2 (blockInsert b s.1.key s.1.value), omapR_omapR]
              rfl
    · rw [if_neg hlt, if_neg hlt]
      rfl

theorem blockInsert_keys (b : List (Str × Value)) (k : Str) (v : Value) :
    (blockInsert b k v).map Prod.fst = insK (b.map Prod.fst) k := by
  unfold blockInsert insK
  by_cases hmem : k ∈ b.map Prod.fst
  · have hany : b.any (fun p => p.1 == k) = true := by
      rw [List.any_eq_true]
      rcases List.mem_map.mp hmem with ⟨p, hp, hpk⟩
      refine ⟨p, hp, ?_⟩
      rw [hpk]
      exact beq_self_eq_true k
    rw [if_pos hany, if_pos hmem, List.map_map]
    apply List.map_congr_left
    intro p hp
    by_cases hpk : p.1 = k
    · simp [Function.comp, hpk]
    · have hb : (p.1 == k) = false := beq_eq_false_iff_ne.mpr hpk
      simp [Function.comp, hb]
  · have hany : b.any (fun p => p.1 == k) = false := by
      rw [List.any_eq_false]
      intro p hp hcontra
      exact hmem (List.mem_map.mpr ⟨p, hp, eq_of_beq hcontra⟩)
    rw [if_neg (by rw [hany]; exact Bool.false_ne_true), if_neg hmem, List.map_append]
    rfl

theorem lookup_map_overwrite (k : Str) (v : Value) : ∀ (b : List (Str × Value)),
    b.any (fun p => p.1 == k) = true →
    List.lookup k (b.map (fun p => if p.1 == k then (k, v) else p)) = some v := by
  intro b
  induction b with
  | nil => intro h; simp at h
  | cons p ps ih =>
    obtain ⟨p1, p2⟩ := p
    intro hany
    rw [List.map_cons]
    by_cases hpk : ((p1, p2).1 == k) = true
    · rw [if_pos hpk]
      simp [List.lookup]
    · rw [if_neg hpk]
      have hpk2 : (p1 == k) = false := by
        rw [Bool.not_eq_true] at hpk
        exact hpk
      have hkp : (k == p1) = false := by
        rw [beq_eq_false_iff_ne] at hpk2 ⊢
        exact fun h => hpk2 h.symm
      have hany2 : ps.any (fun q => q.1 == k) = true := by
        rw [List.any_cons] at hany
        rcases Bool.or_eq_true_iff.mp hany with h | h
        · exact absurd h hpk
        · exact h
      simp only [List.lookup, hkp]
      exact ih hany2

theorem lookup_append_self (k : Str) (v : Value) : ∀ (b : List (Str × Value)),
    b.any (fun p => p.1 == k) = false →
    List.lookup k (b ++ [(k, v)]) = some v := by
  intro b
  induction b with
  | nil =>
    intro h
    simp [List.lookup]
  | cons p ps ih =>
    obtain ⟨p1, p2⟩ := p
    intro hany
    rw [List.any_cons] at hany
    have h1 : ((p1, p2).1 == k) = false := by
      rcases Bool.or_eq_false_iff.mp hany with ⟨ha, hb⟩
      exact ha
    have h2 : ps.any (fun q => q.1 == k) = false := by
      rcases Bool.or_eq_false_iff.mp hany with ⟨ha, hb⟩
      exact hb
    have hkp : (k == p1) = false := by
      rw [beq_eq_false_iff_ne] at h1 ⊢
      exact fun h => h1 h.symm
    rw [List.cons_append]
    simp only [List.lookup, hkp]
    exact ih h2

theorem lookup_map_overwrite_other (k' k : Str) (v : Value) (hne : (k' == k) = false) :
    ∀ (b : List (Str × Value)),
    List.lookup k' (b.map (fun p => if p.1 == k then (k, v) else p)) = List.lookup k' b := by
  intro b
  induction b with
  | nil => rfl
  | cons p ps ih =>
    obtain ⟨p1, p2⟩ := p
    rw [List.map_cons]
    by_cases hpk : ((p1, p2).1 == k) = true
    · rw [if_pos hpk]
      have hp1 : p1 = k := eq_of_beq hpk
      have hk'p : (k' == p1) = false := by rw [hp1]; exact hne
      simp only [List.lookup, hne, hk'p]
      exact ih
    · rw [if_neg hpk]
      by_cases hk'p : (k' == p1) = true
      · simp only [List.lookup, hk'p]
      · have hk'p2 : (k' == p1) = false := by
          rw [Bool.not_eq_true] at hk'p
          exact hk'p
        simp only [List.lookup, hk'p2]
        exact ih

theorem lookup_append_other (k' k : Str) (v : Value) (hne : (k' == k) = false) :
    ∀ (b : List (Str × Value)),
    List.lookup k' (b ++ [(k, v)]) = List.lookup k' b := by
  intro b
  induction b with
  | nil => simp [List.lookup, hne]
  | cons p ps ih =>
    obtain ⟨p1, p2⟩ := p
    rw [List.cons_append]
    by_cases hk'p : (k' == p1) = true
    · simp only [List.lookup, hk'p]
    · have hk'p2 : (k' == p1) = false := by
        rw [Bool.not_eq_true] at hk'p
        exact hk'p
      simp only [List.lookup, hk'p2]
      exact ih

theorem blockInsert_lookup_self (b : List (Str × Value)) (k : Str) (v : Value) :
    List.lookup k (blockInsert b k v) = some v := by
  unfold blockInsert
  by_cases hany : b.any (fun p => p.1 == k) = true
  · rw [if_pos hany]
    exact lookup_map_overwrite k v b hany
  · rw [if_neg hany]
    rw [Bool.not_eq_true] at hany
    exact lookup_append_self k v b hany

theorem blockInsert_lookup_other (b : List (Str × Value)) (k : Str) (v : Value)
    (k' : Str) (hne : k' ≠ k) :
    List.lookup k' (blockInsert b k v) = List.lookup k' b := by
  have hne2 : (k' == k) = false := beq_eq_false_iff_ne.mpr hne
  unfold blockInsert
  by_cases hany : b.any (fun p => p.1 == k) = true
  · rw [if_pos hany]
    exact lookup_map_overwrite_other k' k v hne2 b
  · rw [if_neg hany]
    exact lookup_append_other k' k v hne2 b

theorem lastVal_acc (K : Str) : ∀ (asgn : List (Str × Value)) (o : Option Value),
    asgn.foldl (fun acc p => if p.1 = K then some p.2 else acc) o
      = (lastVal asgn K).or o := by
  intro asgn
  induction asgn with
  | nil => intro o; rfl
  | cons p ps ih =>
    intro o
    rw [List.foldl_cons, ih]
    have hcons : lastVal (p :: ps) K = (lastVal ps K).or (if p.1 = K then some p.2 else none) := by
      unfold lastVal
      rw [List.foldl_cons]
      exact ih _
    rw [hcons]
    by_cases hpk : p.1 = K
    · rw [if_pos hpk, if_pos hpk, Option.or_assoc]
      rfl
    · rw [if_neg hpk, if_neg hpk, Option.or_assoc]
      rfl

theorem foldIns_lookup (K : Str) : ∀ (asgn : List (Str × Value)) (b : List (Str × Value)),
    List.lookup K (asgn.foldl (fun bb p => blockInsert bb p.1 p.2) b)
      = (lastVal asgn K).or (List.lookup K b) := by
  intro asgn
  induction asgn with
  | nil => intro b; rfl
  | cons p ps ih =>
    intro b
    rw [List.foldl_cons, ih]
    have hcons : lastVal (p :: ps) K = (lastVal ps K).or (if p.1 = K then some p.2 else none) := by
      unfold lastVal
      rw [List.foldl_cons]
      exact lastVal_acc K ps _
    rw [hcons]
    by_cases hpk : p.1 = K
    · have hlk : List.lookup K (blockInsert b p.1 p.2) = some p.2 := by
        rw [hpk]
        exact blockInsert_lookup_self b K p.2
      rw [hlk, if_pos hpk, Option.or_assoc]
      rfl
    · have hlk : List.lookup K (blockInsert b p.1 p.2) = List.lookup K b := by
        exact blockInsert_lookup_other b p.1 p.2 K (fun h => hpk h.symm)
      rw [hlk, if_neg hpk, Option.or_assoc]
      rfl

theorem foldIns_keys : ∀ (asgn : List (Str × Value)) (b : List (Str × Value)),
    ((asgn.foldl (fun bb p => blockInsert bb p.1 p.2) b).map Prod.fst)
      = (asgn.map Prod.fst).foldl insK (b.map Prod.fst) := by
  intro asgn
  induction asgn with
  | nil => intro b; rfl
  | cons p ps ih =>
    intro b
    rw [List.foldl_cons, ih, List.map_cons, List.foldl_cons, blockInsert_keys]

theorem foldl_insK_firstDedup : ∀ (ks d seen : List Str),
    (∀ x, x ∈ seen ↔ x ∈ d) → ks.foldl insK d = d ++ firstDedupAux seen ks := by
  intro ks
  induction ks with
  | nil =>
    intro d seen hinv
    simp [firstDedupAux]
  | cons k ks ih =>
    intro d seen hinv
    rw [List.foldl_cons,
      show firstDedupAux seen (k :: ks)
        = if k ∈ seen then firstDedupAux seen ks else k :: firstDedupAux (k :: seen) ks from rfl]
    by_cases hk : k ∈ seen
    · have h1 : insK d k = d := by
        unfold insK
        rw [if_pos ((hinv k).mp hk)]
      rw [h1, if_pos hk]
      exact ih d seen hinv
    · have h1 : insK d k = d ++ [k] := by
        unfold insK
        rw [if_neg (fun hd => hk ((hinv k).mpr hd))]
      rw [h1, if_neg hk, ih (d ++ [k]) (k :: seen) ?_]
      · rw [List.append_assoc, List.singleton_append]
      · intro x
        rw [List.mem_cons, hinv x, List.mem_append, List.mem_singleton]
        tauto

theorem firstDedupAux_count : ∀ (ks seen : List Str) (K : Str),
    (firstDedupAux seen ks).count K
      = if K ∈ seen then 0 else if K ∈ ks then 1 else 0 := by
  intro ks
  induction ks with
  | nil =>
    intro seen K
    by_cases hKs : K ∈ seen
    · rw [if_pos hKs]; rfl
    · rw [if_neg hKs, if_neg (List.not_mem_nil K)]; rfl
  | cons k ks ih =>
    intro seen K
    rw [show firstDedupAux seen (k :: ks)
        = if k ∈ seen then firstDedupAux seen ks else k :: firstDedupAux (k :: seen) ks from rfl]
    by_cases hk : k ∈ seen
    · rw [if_pos hk, ih seen K]
      by_cases hKs : K ∈ seen
      · rw [if_pos hKs, if_pos hKs]
      · rw [if_neg hKs, if_neg hKs]
        have hKk : K ≠ k := fun h => hKs (h ▸ hk)
        by_cases hKks : K ∈ ks
        · rw [if_pos hKks, if_pos (List.mem_cons_of_mem k hKks)]
        · rw [if_neg hKks, if_neg (fun hm => by
            rcases List.mem_cons.mp hm with h | h
            · exact hKk h
            · exact hKks h)]
    · rw [if_neg hk, List.count_cons, ih (k :: seen) K]
      by_cases hKk : K = k
      · subst hKk
        rw [if_pos (List.mem_cons_self K seen), if_neg hk, if_pos (List.mem_cons_self K ks),
          beq_self_eq_true, if_pos rfl]
      · have hbeq : (k == K) = false := beq_eq_false_iff_ne.mpr (fun h => hKk h.symm)
        rw [hbeq, if_neg Bool.false_ne_true, Nat.add_zero]
        by_cases hKs : K ∈ seen
        · rw [if_pos (List.mem_cons_of_mem k hKs), if_pos hKs]
        · rw [if_neg (fun hm => by
              rcases List.mem_cons.mp hm with h | h
              · exact hKk h
              · exact hKs h), if_neg hKs]
          by_cases hKks : K ∈ ks
          · rw [if_pos hKks, if_pos (List.mem_cons_of_mem k hKks)]
          · rw [if_neg hKks, if_neg (fun hm => by
              rcases List.mem_cons.mp hm with h | h
              · exact hKk h
              · exact hKks h)]

theorem lastVal_isSome_of_mem (K : Str) : ∀ (asgn : List (Str × Value)),
    K ∈ asgn.map Prod.fst → (lastVal asgn K).isSome = true := by
  intro asgn
  induction asgn with
  | nil => intro h; simp at h
  | cons p ps ih =>
    intro hmem
    have hcons : lastVal (p :: ps) K = (lastVal ps K).or (if p.1 = K then some p.2 else none) := by
      unfold lastVal
      rw [List.foldl_cons]
      exact lastVal_acc K ps _
    rw [hcons]
    rw [List.map_cons, List.mem_cons] at hmem
    rcases hmem with hmem | hmem
    · rcases hlv : lastVal ps K with _ | v
      · rw [if_pos hmem.symm]
        rfl
      · rfl
    · rcases hlv : lastVal ps K with _ | v
      · have := ih hmem
        rw [hlv] at this
        simp at this
      · rfl

/-- Claim C2: in every parsed block, writing `asgn` for the block's
assignment trace and `B` for the resulting mapping (the `blockInsert`-fold
of `asgn`, per `parse_block_eq_asgns`): whenever a key `K` is assigned more
than once, `B` has exactly one entry for `K`, that entry holds the last
value assigned to `K`, and the whole key order of `B` is the
first-occurrence order of the assigned keys — so `K` sits where it was
first inserted (last-write-wins, position-stable). -/
theorem c2_block_last_write_wins_position_stable (fuel : Nat) (lines : List Str)
    (i : Nat) (asgn : List (Str × Value)) (j : Nat) (K : Str)
    (hasgn : block_asgns fuel lines i = some (Except.ok (asgn, j)))
    (hdup : 2 ≤ (asgn.map Prod.fst).count K) :
    parse_block fuel lines i []
        = some (Except.ok (asgn.foldl (fun bb p => blockInsert bb p.1 p.2) [], j))
    ∧ ((asgn.foldl (fun bb p => blockInsert bb p.1 p.2) []).map Prod.fst)
        = firstDedup (asgn.map Prod.fst)
    ∧ (((asgn.foldl (fun bb p => blockInsert bb p.1 p.2) []).map Prod.fst).count K) = 1
    ∧ List.lookup K (asgn.foldl (fun bb p => blockInsert bb p.1 p.2) []) = lastVal asgn K
    ∧ (lastVal asgn K).isSome = true := by
  have hmem : K ∈ asgn.map Prod.fst := by
    by_contra hK
    rw [List.count_eq_zero.mpr hK] at hdup
    omega
  have hkeys : ((asgn.foldl (fun bb p => blockInsert bb p.1 p.2) []).map Prod.fst)
      = firstDedup (asgn.map Prod.fst) := by
    rw [foldIns_keys asgn []]
    have h0 := foldl_insK_firstDedup (asgn.map Prod.fst) [] [] (by simp)
    rw [List.nil_append] at h0
    exact h0
  refine ⟨?_, hkeys, ?_, ?_, ?_⟩
  · rw [parse_block_eq_asgns, hasgn]
    rfl
  · rw [hkeys]
    unfold firstDedup
    rw [firstDedupAux_count (asgn.map Prod.fst) [] K]
    simp [hmem]
  · rw [foldIns_lookup K asgn [],
      show List.lookup K ([] : List (Str × Value)) = none from rfl, Option.or_none]
  · exact lastVal_isSome_of_mem K asgn hmem

/-- Witness for C2: in the block body `a 1` / `b 2` / `a 3` / `}` the key
`a` is assigned twice; the mapping keeps one `a` entry in first position
holding the last value `3`, with `b` after it. -/
theorem c2_witness :
    block_asgns 9 [("a 1").toList, ("b 2").toList, ("a 3").toList, ['\x7d']] 0
      = some (Except.ok ([(['a'], Value.scalar ['1']), (['b'], Value.scalar ['2']),
          (['a'], Value.scalar ['3'])], 4))
    ∧ 2 ≤ (([(['a'], Value.scalar ['1']), (['b'], Value.scalar ['2']),
          (['a'], Value.scalar ['3'])] : List (Str × Value)).map Prod.fst).count ['a']
    ∧ parse_block 9 [("a 1").toList, ("b 2").toList, ("a 3").toList, ['\x7d']] 0 []
      = some (Except.ok ([(['a'], Value.scalar ['3']), (['b'], Value.scalar ['2'])], 4)) := by
  refine ⟨rfl, by decide, ?_⟩
  exact (c2_block_last_write_wins_position_stable 9
    [("a 1").toList, ("b 2").toList, ("a 3").toList, ['\x7d']] 0
    [(['a'], Value.scalar ['1']), (['b'], Value.scalar ['2']), (['a'], Value.scalar ['3'])]
    4 ['a'] rfl (by decide)).1

end UP
